import Mathlib

/-!
Verification of the line-rendering engine of
`src/vs/editor/common/viewLayout/viewLineRenderer.ts`.

The TypeScript source is shallowly embedded: the line text is a list of
UTF-16 code units (modelled as `Char`, one unit at a time), token arrays
are lists, the character loop of `renderLineActual` becomes a fuel-style
recursion (`scanChars`) whose fuel is the exact iteration count
`toCharIndex - charIndex` of the source `for` loop, and the outer token
loop becomes a structural recursion over the token list (`renderParts`).
The `throw` in `renderLine` becomes `Except.error`.
-/

namespace ViewLineRenderer

/-- A style token (`LineToken` in the source): a start offset and a
type label. -/
structure LineToken where
  startIndex : Nat
  type : String
deriving DecidableEq

/-- `RenderLineInput` from the source: line content, tab size, the
truncation limit `stopRenderingLineAfter` (`-1` means no limit), the
whitespace-visualization flag, and the token list. -/
structure RenderLineInput where
  lineContent : List Char
  tabSize : Nat
  stopRenderingLineAfter : Int
  renderWhitespace : Bool
  parts : List LineToken
deriving DecidableEq

/-- `IRenderLineOutput` from the source. -/
structure IRenderLineOutput where
  charOffsetInPart : List Nat
  lastRenderedPartIndex : Nat
  output : List String
deriving DecidableEq

/-- JS `\w` character class used by the word-boundary assertion `\b`:
ASCII letters, digits, or underscore. -/
def isWordChar (c : Char) : Bool := c.isAlphanum || c == '_'

/-- The characters of the literal word `whitespace`. -/
def whitespaceWord : List Char := ['w', 'h', 'i', 't', 'e', 's', 'p', 'a', 'c', 'e']

/-- Try to strip the given word from the front of a character list. -/
def stripWord : List Char → List Char → Option (List Char)
  | [], cs => some cs
  | _ :: _, [] => none
  | w :: ws, c :: cs => if c = w then stripWord ws cs else none

/-- Word-boundary assertion after a match: end of string or a non-word
character. -/
def boundaryAfter : List Char → Bool
  | [] => true
  | c :: _ => !isWordChar c

/-- Word-boundary assertion before a match position, given the previous
character (none at the start of the string). -/
def boundaryBefore : Option Char → Bool
  | none => true
  | some c => !isWordChar c

/-- Scan for an occurrence of `whitespace` delimited by word boundaries,
tracking the previous character. -/
def wsSearch : Option Char → List Char → Bool
  | _, [] => false
  | prev, c :: cs =>
    (boundaryBefore prev &&
      (match stripWord whitespaceWord (c :: cs) with
       | some rest => boundaryAfter rest
       | none => false))
    || wsSearch (some c) cs

/-- `isWhitespace` from the source: the regular-expression test
`/\bwhitespace\b/.test(type)`. -/
def isWhitespace (type : String) : Bool := wsSearch none type.data

/-- The mutable locals of the character loop of `renderLineActual`:
`charIndex`, `out`, `charOffsetInPartArr`, `tabsCharDelta`, and the
per-token counter `charOffsetInPart`. -/
structure ScanState where
  charIndex : Nat
  out : List String
  charOffsetInPartArr : List Nat
  tabsCharDelta : Nat
  charOffsetInPart : Nat
deriving DecidableEq

/-- The single string pushed on truncation in the source:
`'&hellip;</span></span>'`. -/
def hellipMarker : String := "&hellip;</span></span>"

/-- `charOffsetInPartArr[charOffsetInPartArr.length - 1]++` from the
truncation branch: increment the last entry of the list. -/
def incLast : List Nat → List Nat
  | [] => []
  | [x] => [x + 1]
  | x :: y :: rest => x :: incLast (y :: rest)

/-- One iteration of the character loop body (source lines 109-161):
record the current `charOffsetInPart` into the offset array, dispatch on
the character code, push the produced fragments, and advance
`tabsCharDelta` and `charOffsetInPart`.  `charIndex` is left unchanged;
the loop-update increment and the truncation check live in `scanChars`. -/
def renderOneChar (lineText : List Char) (tabSize : Nat) (partRendersWhitespace : Bool)
    (st : ScanState) : ScanState :=
  let arr1 := st.charOffsetInPartArr ++ [st.charOffsetInPart]
  let c := lineText.getD st.charIndex (Char.ofNat 0)
  let charCode := c.toNat
  if charCode = 9 then
    let insertSpacesCount := tabSize - (st.charIndex + st.tabsCharDelta) % tabSize
    let pushes :=
      if 0 < insertSpacesCount then
        (if partRendersWhitespace then "&rarr;" else "&nbsp;") ::
          List.replicate (insertSpacesCount - 1) "&nbsp;"
      else []
    { charIndex := st.charIndex
      out := st.out ++ pushes
      charOffsetInPartArr := arr1
      tabsCharDelta := st.tabsCharDelta + (insertSpacesCount - 1)
      charOffsetInPart := st.charOffsetInPart + (insertSpacesCount - 1) + 1 }
  else
    let pushes :=
      if charCode = 32 then [if partRendersWhitespace then "&middot;" else "&nbsp;"]
      else if charCode = 60 then ["&lt;"]
      else if charCode = 62 then ["&gt;"]
      else if charCode = 38 then ["&amp;"]
      else if charCode = 0 then ["&#00;"]
      else if charCode = 65279 ∨ charCode = 8232 then ["�"]
      else if charCode = 13 then ["&#8203"]
      else [String.mk [c]]
    { st with
      out := st.out ++ pushes
      charOffsetInPartArr := arr1
      charOffsetInPart := st.charOffsetInPart + 1 }

/-- The character loop of `renderLineActual` over one token's range,
with fuel equal to the source loop's iteration count.  After each body
execution, if `charIndex >= charBreakIndex` the loop returns early with
the ellipsis marker pushed and the last offset entry incremented
(source lines 163-171); otherwise `charIndex` is incremented and the
loop continues. -/
def scanChars (lineText : List Char) (tabSize : Nat) (partRendersWhitespace : Bool)
    (charBreakIndex : Int) : Nat → ScanState → ScanState ⊕ (List Nat × List String)
  | 0, st => Sum.inl st
  | Nat.succ n, st =>
    let st1 := renderOneChar lineText tabSize partRendersWhitespace st
    if (st.charIndex : Int) ≥ charBreakIndex then
      Sum.inr (incLast st1.charOffsetInPartArr, st1.out ++ [hellipMarker])
    else
      scanChars lineText tabSize partRendersWhitespace charBreakIndex n
        { st1 with charIndex := st.charIndex + 1 }

/-- The loop-local `toCharIndex` of the token loop (source lines
101-105): the end of the current token's range is the next token's
`startIndex` clamped to the line length, or the line length when the
current token is the last one.  `rest` is the list of tokens after the
current one. -/
def partEndIndex (lineText : List Char) : List LineToken → Nat
  | [] => lineText.length
  | nextPart :: _ => min lineText.length nextPart.startIndex

/-- The token loop of `renderLineActual` (source lines 89-174): for each
token, push the opening span, compute the whitespace flag and the end of
the token's range, reset `charOffsetInPart` to `0`, scan the characters,
and either propagate an early truncation return (pairing it with the
current `partIndex`) or close the span and continue. -/
def renderParts (lineText : List Char) (tabSize : Nat) (renderWhitespace : Bool)
    (charBreakIndex : Int) :
    List LineToken → Nat → ScanState → ScanState ⊕ (List Nat × Nat × List String)
  | [], _, st => Sum.inl st
  | part :: rest, partIndex, st =>
    let partRendersWhitespace := renderWhitespace && isWhitespace part.type
    let toCharIndex : Nat := partEndIndex lineText rest
    let st1 : ScanState :=
      { st with
        out := st.out ++ ["<span class=\"token ", part.type, "\">"]
        charOffsetInPart := 0 }
    match scanChars lineText tabSize partRendersWhitespace charBreakIndex
        (toCharIndex - st1.charIndex) st1 with
    | Sum.inr (offs, outArr) => Sum.inr (offs, partIndex, outArr)
    | Sum.inl st2 =>
      renderParts lineText tabSize renderWhitespace charBreakIndex rest (partIndex + 1)
        { st2 with out := st2.out ++ ["</span>"] }

/-- `renderLineActual` from the source (its `lineTextLength` parameter
always receives `lineText.length` at the only call site and is inlined
as such): run the token loop from the initial state; on normal
completion push the closing outer span and the trailing sentinel offset
entry, with `lastRenderedPartIndex = parts.length - 1`. -/
def renderLineActual (lineText : List Char) (tabSize : Nat) (actualLineParts : List LineToken)
    (renderWhitespace : Bool) (charBreakIndex : Int) : IRenderLineOutput :=
  let st0 : ScanState :=
    { charIndex := 0, out := ["<span>"], charOffsetInPartArr := [],
      tabsCharDelta := 0, charOffsetInPart := 0 }
  match renderParts lineText tabSize renderWhitespace charBreakIndex actualLineParts 0 st0 with
  | Sum.inr (offs, partIndex, outArr) =>
    { charOffsetInPart := offs, lastRenderedPartIndex := partIndex, output := outArr }
  | Sum.inl st =>
    { charOffsetInPart := st.charOffsetInPartArr ++ [st.charOffsetInPart]
      lastRenderedPartIndex := actualLineParts.length - 1
      output := st.out ++ ["</span>"] }

/-- `renderLine` from the source: compute `charBreakIndex`, special-case
the empty line, reject a non-empty line with no tokens (the `throw`
becomes `Except.error`), and otherwise run `renderLineActual`. -/
def renderLine (input : RenderLineInput) : Except String IRenderLineOutput :=
  let lineText := input.lineContent
  let lineTextLength := lineText.length
  let tabSize := input.tabSize
  let actualLineParts := input.parts
  let renderWhitespace := input.renderWhitespace
  let charBreakIndex : Int :=
    if input.stopRenderingLineAfter = -1 then (lineTextLength : Int)
    else input.stopRenderingLineAfter - 1
  if lineTextLength = 0 then
    Except.ok
      { charOffsetInPart := []
        lastRenderedPartIndex := 0
        output := ["<span><span>&nbsp;</span></span>"] }
  else if actualLineParts.length = 0 then
    Except.error "Cannot render non empty line without line parts!"
  else
    Except.ok (renderLineActual lineText tabSize actualLineParts renderWhitespace charBreakIndex)

/-- The index of the token whose rendered range contains source offset
`c`, per the range semantics of the token loop: a token's range ends at
the next token's `startIndex` and the last token's range extends to the
end of the line.  Under the documented token invariant (strictly
increasing `startIndex`, first `startIndex` zero) this is the greatest
`j` with `parts[j].startIndex ≤ c`. -/
def tokenContaining : List LineToken → Nat → Nat
  | [], _ => 0
  | [_], _ => 0
  | _ :: q :: rest, c => if c < q.startIndex then 0 else tokenContaining (q :: rest) c + 1

/-!
Reference layer: closed forms for the quantities tracked by the
character loop, read off the `case _tab` branch.  `tabDelta` is the
amount the tab branch adds to both `tabsCharDelta` and
`charOffsetInPart` (zero for every other character); `dAfter` iterates
it; `recSeg` lists the values recorded into `charOffsetInPartArr` over a
range of characters.
-/

/-- The extra columns a single character adds: `insertSpacesCount - 1`
for a tab at index `i` with accumulated delta `d`, zero otherwise. -/
def tabDelta (lineText : List Char) (tabSize : Nat) (i d : Nat) : Nat :=
  if (lineText.getD i (Char.ofNat 0)).toNat = 9 then
    (tabSize - (i + d) % tabSize) - 1
  else 0

/-- `tabsCharDelta` after scanning `n` characters starting at index `i`
with initial delta `d`. -/
def dAfter (lineText : List Char) (tabSize : Nat) : Nat → Nat → Nat → Nat
  | 0, _, d => d
  | Nat.succ n, i, d => dAfter lineText tabSize n (i + 1) (d + tabDelta lineText tabSize i d)

/-- The `charOffsetInPartArr` entries recorded while scanning `n`
characters starting at index `i`, with accumulated delta `d` and
per-token counter `cop`. -/
def recSeg (lineText : List Char) (tabSize : Nat) : Nat → Nat → Nat → Nat → List Nat
  | 0, _, _, _ => []
  | Nat.succ n, i, d, cop =>
    cop :: recSeg lineText tabSize n (i + 1) (d + tabDelta lineText tabSize i d)
      (cop + tabDelta lineText tabSize i d + 1)

/-- The `charOffsetInPartArr` entries recorded by the token loop from
character index `ci` with accumulated delta `d` (the per-token counter
resets to `0` at each token). -/
def partRecs (lineText : List Char) (tabSize : Nat) :
    List LineToken → Nat → Nat → List Nat
  | [], _, _ => []
  | _ :: rest, ci, d =>
    let n := partEndIndex lineText rest - ci
    recSeg lineText tabSize n ci d 0 ++
      partRecs lineText tabSize rest (ci + n) (dAfter lineText tabSize n ci d)

/-- The final value of the per-token counter `charOffsetInPart` after
the token loop runs to completion from character index `ci` with
accumulated delta `d` and current counter `cop`. -/
def lastCop (lineText : List Char) (tabSize : Nat) :
    List LineToken → Nat → Nat → Nat → Nat
  | [], _, _, cop => cop
  | _ :: rest, ci, d, _ =>
    let n := partEndIndex lineText rest - ci
    lastCop lineText tabSize rest (ci + n) (dAfter lineText tabSize n ci d)
      (n + (dAfter lineText tabSize n ci d - d))

theorem incLast_length : ∀ l : List Nat, (incLast l).length = l.length
  | [] => rfl
  | [_] => rfl
  | _ :: y :: rest => by
    simp only [incLast, List.length_cons]
    exact congrArg (· + 1) (incLast_length (y :: rest))

theorem incLast_cons_of_ne_nil {x : Nat} {l : List Nat} (h : l ≠ []) :
    incLast (x :: l) = x :: incLast l := by
  cases l with
  | nil => exact absurd rfl h
  | cons y rest => rfl

theorem incLast_append {a b : List Nat} (h : b ≠ []) :
    incLast (a ++ b) = a ++ incLast b := by
  induction a with
  | nil => simp
  | cons x xs ih =>
    have hne : xs ++ b ≠ [] := by
      intro hc
      exact h (List.append_eq_nil.mp hc).2
    rw [List.cons_append, incLast_cons_of_ne_nil hne, ih, List.cons_append]

theorem recSeg_length (lineText : List Char) (tabSize : Nat) :
    ∀ n i d cop, (recSeg lineText tabSize n i d cop).length = n := by
  intro n
  induction n with
  | zero => intro i d cop; rfl
  | succ n ih =>
    intro i d cop
    simp only [recSeg, List.length_cons, ih]

theorem recSeg_take (lineText : List Char) (tabSize : Nat) :
    ∀ n t i d cop, (recSeg lineText tabSize n i d cop).take t =
      recSeg lineText tabSize (min t n) i d cop := by
  intro n
  induction n with
  | zero => intro t i d cop; simp [recSeg]
  | succ n ih =>
    intro t i d cop
    cases t with
    | zero => simp [recSeg]
    | succ t =>
      simp only [recSeg, List.take_succ_cons, ih, Nat.succ_min_succ]

theorem recSeg_ne_nil (lineText : List Char) (tabSize : Nat) {n : Nat} (i d cop : Nat)
    (h : 0 < n) : recSeg lineText tabSize n i d cop ≠ [] := by
  intro hc
  have := recSeg_length lineText tabSize n i d cop
  rw [hc] at this
  simp at this
  omega

theorem dAfter_ge (lineText : List Char) (tabSize : Nat) :
    ∀ n i d, d ≤ dAfter lineText tabSize n i d := by
  intro n
  induction n with
  | zero => intro i d; exact Nat.le_refl d
  | succ n ih =>
    intro i d
    exact Nat.le_trans (Nat.le_add_right d _) (ih (i + 1) (d + tabDelta lineText tabSize i d))

theorem partEndIndex_le (lineText : List Char) (rest : List LineToken) :
    partEndIndex lineText rest ≤ lineText.length := by
  cases rest with
  | nil => exact Nat.le_refl _
  | cons q rest2 => exact Nat.min_le_left _ _

theorem partRecs_cons (lineText : List Char) (tabSize : Nat) (p : LineToken)
    (rest : List LineToken) (ci d : Nat) :
    partRecs lineText tabSize (p :: rest) ci d =
      recSeg lineText tabSize (partEndIndex lineText rest - ci) ci d 0 ++
        partRecs lineText tabSize rest (ci + (partEndIndex lineText rest - ci))
          (dAfter lineText tabSize (partEndIndex lineText rest - ci) ci d) := rfl

theorem lastCop_cons (lineText : List Char) (tabSize : Nat) (p : LineToken)
    (rest : List LineToken) (ci d cop : Nat) :
    lastCop lineText tabSize (p :: rest) ci d cop =
      lastCop lineText tabSize rest (ci + (partEndIndex lineText rest - ci))
        (dAfter lineText tabSize (partEndIndex lineText rest - ci) ci d)
        ((partEndIndex lineText rest - ci) +
          (dAfter lineText tabSize (partEndIndex lineText rest - ci) ci d - d)) := rfl

theorem partRecs_length (lineText : List Char) (tabSize : Nat) :
    ∀ parts : List LineToken, ∀ ci d, parts ≠ [] → ci ≤ lineText.length →
      (partRecs lineText tabSize parts ci d).length = lineText.length - ci := by
  intro parts
  induction parts with
  | nil => intro ci d h _; exact absurd rfl h
  | cons p rest ih =>
    intro ci d _ hci
    cases rest with
    | nil =>
      simp only [partRecs_cons, List.length_append, recSeg_length, partRecs,
        List.length_nil, partEndIndex]
      omega
    | cons q rest2 =>
      have hto : partEndIndex lineText (q :: rest2) ≤ lineText.length :=
        partEndIndex_le lineText (q :: rest2)
      rw [partRecs_cons, List.length_append, recSeg_length,
        ih _ _ (by simp) (by omega)]
      omega

/-- What one character-loop iteration does, as a function of the state:
it appends some fragments (none of which is the ellipsis marker or a
bare `<`, `>`, `&`), records the current `charOffsetInPart` into the
offset array, and advances `tabsCharDelta` and `charOffsetInPart` by
`tabDelta` (plus the unconditional final increment of the counter). -/
theorem renderOneChar_spec (lineText : List Char) (tabSize : Nat) (prw : Bool)
    (st : ScanState) :
    ∃ ps : List String,
      (hellipMarker ∉ ps ∧ ("<" : String) ∉ ps ∧ (">" : String) ∉ ps ∧ ("&" : String) ∉ ps) ∧
      renderOneChar lineText tabSize prw st =
        ⟨st.charIndex, st.out ++ ps,
          st.charOffsetInPartArr ++ [st.charOffsetInPart],
          st.tabsCharDelta + tabDelta lineText tabSize st.charIndex st.tabsCharDelta,
          st.charOffsetInPart + tabDelta lineText tabSize st.charIndex st.tabsCharDelta + 1⟩ := by
  set c := lineText.getD st.charIndex (Char.ofNat 0) with hc
  by_cases h9 : c.toNat = 9
  · refine ⟨if 0 < tabSize - (st.charIndex + st.tabsCharDelta) % tabSize then
        (if prw then "&rarr;" else "&nbsp;") ::
          List.replicate (tabSize - (st.charIndex + st.tabsCharDelta) % tabSize - 1) "&nbsp;"
      else [], ?_, ?_⟩
    · have key : ∀ s : String,
          s ∈ (if 0 < tabSize - (st.charIndex + st.tabsCharDelta) % tabSize then
            (if prw then "&rarr;" else "&nbsp;") ::
              List.replicate (tabSize - (st.charIndex + st.tabsCharDelta) % tabSize - 1) "&nbsp;"
          else []) → s = "&rarr;" ∨ s = "&nbsp;" := by
        intro s hs
        by_cases hisc : 0 < tabSize - (st.charIndex + st.tabsCharDelta) % tabSize
        · rw [if_pos hisc] at hs
          rcases List.mem_cons.mp hs with h | h
          · cases prw
            · exact Or.inr (by simpa using h)
            · exact Or.inl (by simpa using h)
          · exact Or.inr (List.eq_of_mem_replicate h)
        · rw [if_neg hisc] at hs
          exact absurd hs (List.not_mem_nil s)
      refine ⟨fun hm => ?_, fun hm => ?_, fun hm => ?_, fun hm => ?_⟩ <;>
        rcases key _ hm with h | h <;> exact absurd h (by decide)
    · simp only [renderOneChar, ← hc, h9, if_pos, tabDelta]
  · refine ⟨if c.toNat = 32 then [if prw then "&middot;" else "&nbsp;"]
      else if c.toNat = 60 then ["&lt;"]
      else if c.toNat = 62 then ["&gt;"]
      else if c.toNat = 38 then ["&amp;"]
      else if c.toNat = 0 then ["&#00;"]
      else if c.toNat = 65279 ∨ c.toNat = 8232 then ["�"]
      else if c.toNat = 13 then ["&#8203"]
      else [String.mk [c]], ?_, ?_⟩
    · have key : ∀ s : String,
          s ∈ (if c.toNat = 32 then [if prw then "&middot;" else "&nbsp;"]
            else if c.toNat = 60 then ["&lt;"]
            else if c.toNat = 62 then ["&gt;"]
            else if c.toNat = 38 then ["&amp;"]
            else if c.toNat = 0 then ["&#00;"]
            else if c.toNat = 65279 ∨ c.toNat = 8232 then ["�"]
            else if c.toNat = 13 then ["&#8203"]
            else [String.mk [c]]) →
          s = "&middot;" ∨ s = "&nbsp;" ∨ s = "&lt;" ∨ s = "&gt;" ∨ s = "&amp;" ∨
            s = "&#00;" ∨ s = "�" ∨ s = "&#8203" ∨
            (s = String.mk [c] ∧ c.toNat ≠ 60 ∧ c.toNat ≠ 62 ∧ c.toNat ≠ 38) := by
        intro s hs
        by_cases h32 : c.toNat = 32
        · rw [if_pos h32] at hs
          rw [List.mem_singleton] at hs
          cases prw
          · exact Or.inr (Or.inl (by simpa using hs))
          · exact Or.inl (by simpa using hs)
        · rw [if_neg h32] at hs
          by_cases h60 : c.toNat = 60
          · rw [if_pos h60, List.mem_singleton] at hs
            exact Or.inr (Or.inr (Or.inl hs))
          · rw [if_neg h60] at hs
            by_cases h62 : c.toNat = 62
            · rw [if_pos h62, List.mem_singleton] at hs
              exact Or.inr (Or.inr (Or.inr (Or.inl hs)))
            · rw [if_neg h62] at hs
              by_cases h38 : c.toNat = 38
              · rw [if_pos h38, List.mem_singleton] at hs
                exact Or.inr (Or.inr (Or.inr (Or.inr (Or.inl hs))))
              · rw [if_neg h38] at hs
                by_cases h0 : c.toNat = 0
                · rw [if_pos h0, List.mem_singleton] at hs
                  exact Or.inr (Or.inr (Or.inr (Or.inr (Or.inr (Or.inl hs)))))
                · rw [if_neg h0] at hs
                  by_cases hbom : c.toNat = 65279 ∨ c.toNat = 8232
                  · rw [if_pos hbom, List.mem_singleton] at hs
                    exact Or.inr (Or.inr (Or.inr (Or.inr (Or.inr (Or.inr (Or.inl hs))))))
                  · rw [if_neg hbom] at hs
                    by_cases h13 : c.toNat = 13
                    · rw [if_pos h13, List.mem_singleton] at hs
                      exact Or.inr (Or.inr (Or.inr (Or.inr (Or.inr (Or.inr
                        (Or.inr (Or.inl hs)))))))
                    · rw [if_neg h13, List.mem_singleton] at hs
                      exact Or.inr (Or.inr (Or.inr (Or.inr (Or.inr (Or.inr
                        (Or.inr (Or.inr ⟨hs, h60, h62, h38⟩)))))))
      have hone : ∀ s : String, s = String.mk [c] → s.data.length = 1 := by
        intro s hs
        rw [hs]
        rfl
      refine ⟨fun hm => ?_, fun hm => ?_, fun hm => ?_, fun hm => ?_⟩ <;>
        rcases key _ hm with h | h | h | h | h | h | h | h | h
      case _ => exact absurd h (by decide)
      case _ => exact absurd h (by decide)
      case _ => exact absurd h (by decide)
      case _ => exact absurd h (by decide)
      case _ => exact absurd h (by decide)
      case _ => exact absurd h (by decide)
      case _ => exact absurd h (by decide)
      case _ => exact absurd h (by decide)
      case _ => exact absurd (hone _ h.1) (by decide)
      case _ => exact absurd h (by decide)
      case _ => exact absurd h (by decide)
      case _ => exact absurd h (by decide)
      case _ => exact absurd h (by decide)
      case _ => exact absurd h (by decide)
      case _ => exact absurd h (by decide)
      case _ => exact absurd h (by decide)
      case _ => exact absurd h (by decide)
      case _ =>
        have : c = '<' := by
          have hd := congrArg String.data h.1
          simpa using hd.symm
        exact absurd (this ▸ rfl) h.2.1
      case _ => exact absurd h (by decide)
      case _ => exact absurd h (by decide)
      case _ => exact absurd h (by decide)
      case _ => exact absurd h (by decide)
      case _ => exact absurd h (by decide)
      case _ => exact absurd h (by decide)
      case _ => exact absurd h (by decide)
      case _ => exact absurd h (by decide)
      case _ =>
        have : c = '>' := by
          have hd := congrArg String.data h.1
          simpa using hd.symm
        exact absurd (this ▸ rfl) h.2.2.1
      case _ => exact absurd h (by decide)
      case _ => exact absurd h (by decide)
      case _ => exact absurd h (by decide)
      case _ => exact absurd h (by decide)
      case _ => exact absurd h (by decide)
      case _ => exact absurd h (by decide)
      case _ => exact absurd h (by decide)
      case _ => exact absurd h (by decide)
      case _ =>
        have : c = '&' := by
          have hd := congrArg String.data h.1
          simpa using hd.symm
        exact absurd (this ▸ rfl) h.2.2.2
    · simp only [renderOneChar, ← hc, h9, if_neg, tabDelta]
      simp [h9]

/-- If the truncation check never fires during a segment of `n`
characters (every scanned index stays below `charBreakIndex`), the
character loop runs to completion and all tracked quantities follow
their closed forms. -/
theorem scanChars_inl (lineText : List Char) (tabSize : Nat) (prw : Bool) (CBI : Int) :
    ∀ (n : Nat) (st : ScanState), ((st.charIndex + n : Nat) : Int) ≤ CBI →
    ∃ ps : List String, hellipMarker ∉ ps ∧
      scanChars lineText tabSize prw CBI n st = Sum.inl
        ⟨st.charIndex + n, st.out ++ ps,
          st.charOffsetInPartArr ++
            recSeg lineText tabSize n st.charIndex st.tabsCharDelta st.charOffsetInPart,
          dAfter lineText tabSize n st.charIndex st.tabsCharDelta,
          st.charOffsetInPart + n +
            (dAfter lineText tabSize n st.charIndex st.tabsCharDelta - st.tabsCharDelta)⟩ := by
  intro n
  induction n with
  | zero =>
    intro st _
    refine ⟨[], by simp, ?_⟩
    cases st
    simp [scanChars, recSeg, dAfter]
  | succ n ih =>
    intro st h
    obtain ⟨ps0, ⟨hm0, _, _, _⟩, hstep⟩ := renderOneChar_spec lineText tabSize prw st
    have hlt : ¬ ((st.charIndex : Int) ≥ CBI) := by
      push_cast at h
      omega
    have hunfold : scanChars lineText tabSize prw CBI (n + 1) st =
        scanChars lineText tabSize prw CBI n
          { renderOneChar lineText tabSize prw st with charIndex := st.charIndex + 1 } := by
      simp only [scanChars]
      rw [if_neg hlt]
    rw [hstep] at hunfold
    obtain ⟨ps1, hm1, hrun⟩ := ih
      ⟨st.charIndex + 1, st.out ++ ps0,
        st.charOffsetInPartArr ++ [st.charOffsetInPart],
        st.tabsCharDelta + tabDelta lineText tabSize st.charIndex st.tabsCharDelta,
        st.charOffsetInPart + tabDelta lineText tabSize st.charIndex st.tabsCharDelta + 1⟩
      (by push_cast at h ⊢; omega)
    refine ⟨ps0 ++ ps1, ?_, ?_⟩
    · simp only [List.mem_append]
      rintro (hmem | hmem)
      exacts [hm0 hmem, hm1 hmem]
    · rw [hunfold, hrun]
      simp only [Sum.inl.injEq, ScanState.mk.injEq]
      have hD := dAfter_ge lineText tabSize n (st.charIndex + 1)
        (st.tabsCharDelta + tabDelta lineText tabSize st.charIndex st.tabsCharDelta)
      refine ⟨by omega, by simp, ?_, rfl, ?_⟩
      · simp [recSeg, List.append_assoc]
      · simp only [dAfter]
        omega

/-- If the truncation index `K` falls inside a segment of `n`
characters, the character loop returns early: the offset array gains one
entry per character scanned up to and including index `K` with the final
entry incremented, and the fragments pushed since entry contain the
ellipsis marker exactly once. -/
theorem scanChars_inr (lineText : List Char) (tabSize : Nat) (prw : Bool) (K : Nat) :
    ∀ (n : Nat) (st : ScanState), st.charIndex ≤ K → K < st.charIndex + n →
    ∃ ps : List String, ps.count hellipMarker = 1 ∧
      scanChars lineText tabSize prw (K : Int) n st = Sum.inr
        (st.charOffsetInPartArr ++
          incLast (recSeg lineText tabSize (K + 1 - st.charIndex) st.charIndex
            st.tabsCharDelta st.charOffsetInPart),
         st.out ++ ps) := by
  intro n
  induction n with
  | zero =>
    intro st h1 h2
    omega
  | succ n ih =>
    intro st h1 h2
    obtain ⟨ps0, ⟨hm0, _, _, _⟩, hstep⟩ := renderOneChar_spec lineText tabSize prw st
    by_cases hK : K ≤ st.charIndex
    · have hciK : st.charIndex = K := Nat.le_antisymm h1 hK
      have hge : ((st.charIndex : Int) ≥ (K : Int)) := by
        omega
      have hunfold : scanChars lineText tabSize prw (K : Int) (n + 1) st =
          Sum.inr (incLast (renderOneChar lineText tabSize prw st).charOffsetInPartArr,
            (renderOneChar lineText tabSize prw st).out ++ [hellipMarker]) := by
        simp only [scanChars]
        rw [if_pos hge]
      rw [hstep] at hunfold
      refine ⟨ps0 ++ [hellipMarker], ?_, ?_⟩
      · rw [List.count_append, List.count_eq_zero.mpr hm0]
        simp
      · rw [hunfold]
        have h1eq : K + 1 - st.charIndex = 1 := by omega
        rw [h1eq]
        have hseg : recSeg lineText tabSize 1 st.charIndex st.tabsCharDelta
            st.charOffsetInPart = [st.charOffsetInPart] := rfl
        rw [hseg]
        rw [incLast_append (by simp)]
        simp [incLast]
    · push_neg at hK
      have hlt : ¬ ((st.charIndex : Int) ≥ (K : Int)) := by
        omega
      have hunfold : scanChars lineText tabSize prw (K : Int) (n + 1) st =
          scanChars lineText tabSize prw (K : Int) n
            { renderOneChar lineText tabSize prw st with charIndex := st.charIndex + 1 } := by
        simp only [scanChars]
        rw [if_neg hlt]
      rw [hstep] at hunfold
      obtain ⟨ps1, hm1, hrun⟩ := ih
        ⟨st.charIndex + 1, st.out ++ ps0,
          st.charOffsetInPartArr ++ [st.charOffsetInPart],
          st.tabsCharDelta + tabDelta lineText tabSize st.charIndex st.tabsCharDelta,
          st.charOffsetInPart + tabDelta lineText tabSize st.charIndex st.tabsCharDelta + 1⟩
        (by show st.charIndex + 1 ≤ K; omega)
        (by show K < st.charIndex + 1 + n; omega)
      refine ⟨ps0 ++ ps1, ?_, ?_⟩
      · rw [List.count_append, List.count_eq_zero.mpr hm0, hm1]
      · rw [hunfold, hrun]
        have hsplit : K + 1 - st.charIndex = (K - st.charIndex) + 1 := by omega
        have hcons : recSeg lineText tabSize ((K - st.charIndex) + 1) st.charIndex
            st.tabsCharDelta st.charOffsetInPart =
            st.charOffsetInPart :: recSeg lineText tabSize (K - st.charIndex)
              (st.charIndex + 1)
              (st.tabsCharDelta + tabDelta lineText tabSize st.charIndex st.tabsCharDelta)
              (st.charOffsetInPart +
                tabDelta lineText tabSize st.charIndex st.tabsCharDelta + 1) := rfl
        have hsplit2 : K + 1 - (st.charIndex + 1) = K - st.charIndex := by omega
        rw [hsplit, hcons, hsplit2,
          incLast_cons_of_ne_nil (recSeg_ne_nil lineText tabSize _ _ _ (by omega))]
        simp [List.append_assoc]

theorem renderParts_cons_eq (lineText : List Char) (tabSize : Nat) (rws : Bool)
    (CBI : Int) (p : LineToken) (rest : List LineToken) (pi : Nat) (st : ScanState) :
    renderParts lineText tabSize rws CBI (p :: rest) pi st =
      match scanChars lineText tabSize (rws && isWhitespace p.type) CBI
          (partEndIndex lineText rest - st.charIndex)
          ⟨st.charIndex, st.out ++ ["<span class=\"token ", p.type, "\">"],
            st.charOffsetInPartArr, st.tabsCharDelta, 0⟩ with
      | Sum.inr (offs, outArr) => Sum.inr (offs, pi, outArr)
      | Sum.inl st2 => renderParts lineText tabSize rws CBI rest (pi + 1)
          { st2 with out := st2.out ++ ["</span>"] } := rfl

/-- If the truncation index lies at or beyond the end of the line, the
token loop runs to completion: the offset array is exactly the recorded
per-character entries and the final per-token counter is `lastCop`. -/
theorem renderParts_inl (lineText : List Char) (tabSize : Nat) (rws : Bool) (CBI : Int)
    (hlen : ((lineText.length : Nat) : Int) ≤ CBI) :
    ∀ (parts : List LineToken) (pi : Nat) (st : ScanState), st.charIndex ≤ lineText.length →
    ∃ (outArr : List String) (ci2 d2 : Nat),
      renderParts lineText tabSize rws CBI parts pi st = Sum.inl
        ⟨ci2, outArr,
          st.charOffsetInPartArr ++
            partRecs lineText tabSize parts st.charIndex st.tabsCharDelta,
          d2,
          lastCop lineText tabSize parts st.charIndex st.tabsCharDelta
            st.charOffsetInPart⟩ := by
  intro parts
  induction parts with
  | nil =>
    intro pi st _
    refine ⟨st.out, st.charIndex, st.tabsCharDelta, ?_⟩
    cases st
    simp [renderParts, partRecs, lastCop]
  | cons p rest ih =>
    intro pi st hci
    have hpe := partEndIndex_le lineText rest
    obtain ⟨ps, hmps, hrun⟩ := scanChars_inl lineText tabSize (rws && isWhitespace p.type)
      CBI (partEndIndex lineText rest - st.charIndex)
      ⟨st.charIndex, st.out ++ ["<span class=\"token ", p.type, "\">"],
        st.charOffsetInPartArr, st.tabsCharDelta, 0⟩
      (by
        show ((st.charIndex + (partEndIndex lineText rest - st.charIndex) : Nat) : Int) ≤ CBI
        have hle : st.charIndex + (partEndIndex lineText rest - st.charIndex) ≤
            lineText.length := by omega
        exact le_trans (by exact_mod_cast hle) hlen)
    obtain ⟨outArr2, ci2, d2, hrec⟩ := ih (pi + 1)
      ⟨st.charIndex + (partEndIndex lineText rest - st.charIndex),
        (st.out ++ ["<span class=\"token ", p.type, "\">"]) ++ ps ++ ["</span>"],
        st.charOffsetInPartArr ++
          recSeg lineText tabSize (partEndIndex lineText rest - st.charIndex)
            st.charIndex st.tabsCharDelta 0,
        dAfter lineText tabSize (partEndIndex lineText rest - st.charIndex)
          st.charIndex st.tabsCharDelta,
        0 + (partEndIndex lineText rest - st.charIndex) +
          (dAfter lineText tabSize (partEndIndex lineText rest - st.charIndex)
            st.charIndex st.tabsCharDelta - st.tabsCharDelta)⟩
      (by
        show st.charIndex + (partEndIndex lineText rest - st.charIndex) ≤ lineText.length
        omega)
    refine ⟨outArr2, ci2, d2, ?_⟩
    rw [renderParts_cons_eq, hrun]
    show renderParts lineText tabSize rws CBI rest (pi + 1) _ = _
    rw [hrec, partRecs_cons, lastCop_cons]
    simp [List.append_assoc]

/-- If the truncation index `K` lies strictly inside the line, the token
loop returns early with: the recorded entries up to index `K` with the
final one incremented, `lastRenderedPartIndex` pointing at the token
whose range contains `K`, and the ellipsis marker pushed exactly once. -/
theorem renderParts_inr (lineText : List Char) (tabSize : Nat) (rws : Bool) (K : Nat)
    (hK : K < lineText.length) :
    ∀ (parts : List LineToken) (pi : Nat) (st : ScanState), parts ≠ [] →
    st.charIndex ≤ K →
    ∃ ps : List String,
      ((∀ p ∈ parts, p.type ≠ hellipMarker) → ps.count hellipMarker = 1) ∧
      renderParts lineText tabSize rws (K : Int) parts pi st = Sum.inr
        (st.charOffsetInPartArr ++
          incLast ((partRecs lineText tabSize parts st.charIndex st.tabsCharDelta).take
            (K + 1 - st.charIndex)),
         pi + tokenContaining parts K,
         st.out ++ ps) := by
  intro parts
  induction parts with
  | nil =>
    intro pi st hne _
    exact absurd rfl hne
  | cons p rest ih =>
    intro pi st _ hci
    have hmspan : p.type ≠ hellipMarker →
        hellipMarker ∉ ["<span class=\"token ", p.type, "\">"] := by
      intro hty hmem
      rcases List.mem_cons.mp hmem with h | hmem
      · exact absurd h (by decide)
      rcases List.mem_cons.mp hmem with h | hmem
      · exact (hty h.symm).elim
      rcases List.mem_cons.mp hmem with h | hmem
      · exact absurd h (by decide)
      · exact absurd hmem (List.not_mem_nil _)
    cases rest with
    | nil =>
      obtain ⟨ps0, hcnt, hrun⟩ := scanChars_inr lineText tabSize
        (rws && isWhitespace p.type) K (partEndIndex lineText [] - st.charIndex)
        ⟨st.charIndex, st.out ++ ["<span class=\"token ", p.type, "\">"],
          st.charOffsetInPartArr, st.tabsCharDelta, 0⟩
        (by show st.charIndex ≤ K; omega)
        (by
          show K < st.charIndex + (partEndIndex lineText [] - st.charIndex)
          show K < st.charIndex + (lineText.length - st.charIndex)
          omega)
      refine ⟨["<span class=\"token ", p.type, "\">"] ++ ps0, ?_, ?_⟩
      · intro htypes
        rw [List.count_append,
          List.count_eq_zero.mpr (hmspan (htypes p (by simp))), hcnt]
      · rw [renderParts_cons_eq, hrun]
        simp only [Sum.inr.injEq, Prod.mk.injEq]
        refine ⟨?_, by simp [tokenContaining], by simp⟩
        have hmin : min (K + 1 - st.charIndex)
            (partEndIndex lineText [] - st.charIndex) = K + 1 - st.charIndex := by
          show min (K + 1 - st.charIndex) (lineText.length - st.charIndex) = _
          omega
        conv_rhs => rw [partRecs_cons]
        simp only [partRecs, List.append_nil]
        rw [recSeg_take, hmin]
    | cons q rest2 =>
      by_cases hq : K < q.startIndex
      · have hKpe : K < partEndIndex lineText (q :: rest2) := by
          show K < min lineText.length q.startIndex
          omega
        obtain ⟨ps0, hcnt, hrun⟩ := scanChars_inr lineText tabSize
          (rws && isWhitespace p.type) K
          (partEndIndex lineText (q :: rest2) - st.charIndex)
          ⟨st.charIndex, st.out ++ ["<span class=\"token ", p.type, "\">"],
            st.charOffsetInPartArr, st.tabsCharDelta, 0⟩
          (by show st.charIndex ≤ K; omega)
          (by
            show K < st.charIndex + (partEndIndex lineText (q :: rest2) - st.charIndex)
            omega)
        refine ⟨["<span class=\"token ", p.type, "\">"] ++ ps0, ?_, ?_⟩
        · intro htypes
          rw [List.count_append,
            List.count_eq_zero.mpr (hmspan (htypes p (by simp))), hcnt]
        · rw [renderParts_cons_eq, hrun]
          simp only [Sum.inr.injEq, Prod.mk.injEq]
          refine ⟨?_, ?_, by simp⟩
          · have hmin : min (K + 1 - st.charIndex)
                (partEndIndex lineText (q :: rest2) - st.charIndex) =
                K + 1 - st.charIndex := by omega
            rw [partRecs_cons, List.take_append_eq_append_take, recSeg_length,
              recSeg_take, hmin]
            have hz : K + 1 - st.charIndex -
                (partEndIndex lineText (q :: rest2) - st.charIndex) = 0 := by omega
            rw [hz, List.take_zero, List.append_nil]
          · simp only [tokenContaining, if_pos hq]
            omega
      · push_neg at hq
        have hpeK : partEndIndex lineText (q :: rest2) ≤ K := by
          have : partEndIndex lineText (q :: rest2) ≤ q.startIndex := Nat.min_le_right _ _
          omega
        obtain ⟨ps0, hm0, hrun⟩ := scanChars_inl lineText tabSize
          (rws && isWhitespace p.type) (K : Int)
          (partEndIndex lineText (q :: rest2) - st.charIndex)
          ⟨st.charIndex, st.out ++ ["<span class=\"token ", p.type, "\">"],
            st.charOffsetInPartArr, st.tabsCharDelta, 0⟩
          (by
            show ((st.charIndex + (partEndIndex lineText (q :: rest2) - st.charIndex) :
              Nat) : Int) ≤ (K : Int)
            have : st.charIndex + (partEndIndex lineText (q :: rest2) - st.charIndex) ≤
              K := by omega
            exact_mod_cast this)
        obtain ⟨ps1, hcnt1, hrec⟩ := ih (pi + 1)
          ⟨st.charIndex + (partEndIndex lineText (q :: rest2) - st.charIndex),
            (st.out ++ ["<span class=\"token ", p.type, "\">"]) ++ ps0 ++ ["</span>"],
            st.charOffsetInPartArr ++
              recSeg lineText tabSize
                (partEndIndex lineText (q :: rest2) - st.charIndex)
                st.charIndex st.tabsCharDelta 0,
            dAfter lineText tabSize
              (partEndIndex lineText (q :: rest2) - st.charIndex)
              st.charIndex st.tabsCharDelta,
            0 + (partEndIndex lineText (q :: rest2) - st.charIndex) +
              (dAfter lineText tabSize
                (partEndIndex lineText (q :: rest2) - st.charIndex)
                st.charIndex st.tabsCharDelta - st.tabsCharDelta)⟩
          (by simp)
          (by
            show st.charIndex + (partEndIndex lineText (q :: rest2) - st.charIndex) ≤ K
            omega)
        refine ⟨["<span class=\"token ", p.type, "\">"] ++ ps0 ++ ["</span>"] ++ ps1,
          ?_, ?_⟩
        · intro htypes
          rw [List.count_append, List.count_append, List.count_append,
            List.count_eq_zero.mpr (hmspan (htypes p (by simp))),
            List.count_eq_zero.mpr hm0,
            hcnt1 (fun p2 hp2 => htypes p2 (List.mem_cons_of_mem p hp2))]
          rfl
        · rw [renderParts_cons_eq, hrun]
          show renderParts lineText tabSize rws (K : Int) (q :: rest2) (pi + 1) _ = _
          rw [hrec]
          simp only [Sum.inr.injEq, Prod.mk.injEq]
          have hlenrecs : (partRecs lineText tabSize (q :: rest2)
              (st.charIndex + (partEndIndex lineText (q :: rest2) - st.charIndex))
              (dAfter lineText tabSize
                (partEndIndex lineText (q :: rest2) - st.charIndex)
                st.charIndex st.tabsCharDelta)).length =
              lineText.length -
                (st.charIndex + (partEndIndex lineText (q :: rest2) - st.charIndex)) := by
            apply partRecs_length
            · simp
            · have := partEndIndex_le lineText (q :: rest2)
              omega
          have htk_ne : (partRecs lineText tabSize (q :: rest2)
              (st.charIndex + (partEndIndex lineText (q :: rest2) - st.charIndex))
              (dAfter lineText tabSize
                (partEndIndex lineText (q :: rest2) - st.charIndex)
                st.charIndex st.tabsCharDelta)).take
              (K + 1 - (st.charIndex +
                (partEndIndex lineText (q :: rest2) - st.charIndex))) ≠ [] := by
            apply List.length_pos.mp
            rw [List.length_take, hlenrecs]
            omega
          refine ⟨?_, ?_, by simp⟩
          · conv_rhs => rw [partRecs_cons, List.take_append_eq_append_take,
              recSeg_length, recSeg_take]
            rw [Nat.min_eq_right (by omega :
                partEndIndex lineText (q :: rest2) - st.charIndex ≤
                  K + 1 - st.charIndex),
              Nat.sub_sub, incLast_append htk_ne, ← List.append_assoc]
          · simp only [tokenContaining, if_neg (not_lt.mpr hq)]
            omega

deriving instance DecidableEq for Except

theorem renderLine_eq_actual (input : RenderLineInput) (hlne : input.lineContent ≠ [])
    (hpne : input.parts ≠ []) :
    renderLine input = Except.ok (renderLineActual input.lineContent input.tabSize
      input.parts input.renderWhitespace
      (if input.stopRenderingLineAfter = -1 then (input.lineContent.length : Int)
       else input.stopRenderingLineAfter - 1)) := by
  have h0 : ¬ input.lineContent.length = 0 := by
    simpa using hlne
  have hp : ¬ input.parts.length = 0 := by
    simpa using hpne
  simp only [renderLine, if_neg h0, if_neg hp]

/-- Claim C1 (amended): for line text `"a\tb"`, tab size 4, a single
token `{startIndex: 0, type: "text"}`, no truncation, whitespace flag
off, `renderLine` renders `a` verbatim, expands the tab to 3
non-breaking-space fragments, renders `b` verbatim — and returns the
offset table `[0, 1, 4, 5]` (entry per character recorded before the
character is appended, plus the trailing sentinel), not `[0, 1, 1, 4]`
as the specification states. -/
theorem claim1_example :
    renderLine ⟨['a', '\t', 'b'], 4, -1, false, [⟨0, "text"⟩]⟩ =
      Except.ok ⟨[0, 1, 4, 5], 0,
        ["<span>", "<span class=\"token ", "text", "\">", "a",
         "&nbsp;", "&nbsp;", "&nbsp;", "b", "</span>", "</span>"]⟩ := by
  decide

/-- Claim C1 counterexample: on the exact input of the claim, the
returned offset table is not `[0, 1, 1, 4]`. -/
theorem claim1_counterexample :
    (renderLine ⟨['a', '\t', 'b'], 4, -1, false, [⟨0, "text"⟩]⟩).map
      IRenderLineOutput.charOffsetInPart ≠ Except.ok [0, 1, 1, 4] := by
  decide

/-- Claim C4: `renderLine` signals the error if and only if the line
text is non-empty and the token sequence is empty; every other input
produces an output (`Except.ok`) and never fails. -/
theorem claim4_error_iff (input : RenderLineInput) :
    (∃ msg, renderLine input = Except.error msg) ↔
      (input.lineContent ≠ [] ∧ input.parts = []) := by
  by_cases h0 : input.lineContent.length = 0
  · simp only [renderLine, if_pos h0]
    constructor
    · rintro ⟨msg, hmsg⟩
      exact absurd hmsg (by simp)
    · rintro ⟨hne, -⟩
      exact absurd (List.length_eq_zero.mp h0) hne
  · by_cases hp : input.parts.length = 0
    · simp only [renderLine, if_neg h0, if_pos hp]
      refine ⟨fun _ => ⟨by simpa using h0, List.length_eq_zero.mp hp⟩, fun _ => ?_⟩
      exact ⟨"Cannot render non empty line without line parts!", rfl⟩
    · simp only [renderLine, if_neg h0, if_neg hp]
      constructor
      · rintro ⟨msg, hmsg⟩
        exact absurd hmsg (by simp)
      · rintro ⟨-, hnil⟩
        exact absurd (by simp [hnil]) hp

/-- Claim C6: on a line of zero length, `renderLine` returns — whatever
the token list, tab size, truncation limit, and whitespace flag — the
fixed single-fragment output `<span><span>&nbsp;</span></span>`, with
`lastRenderedPartIndex = 0` and an empty offset table. -/
theorem claim6_empty (input : RenderLineInput) (h : input.lineContent = []) :
    renderLine input =
      Except.ok ⟨[], 0, ["<span><span>&nbsp;</span></span>"]⟩ := by
  simp [renderLine, h]

/-- Claim C6 witness: a concrete empty-line input with a non-trivial
token list, tab size, truncation limit, and whitespace flag. -/
theorem claim6_empty_witness :
    renderLine ⟨[], 3, 7, true, [⟨5, "zz"⟩]⟩ =
      Except.ok ⟨[], 0, ["<span><span>&nbsp;</span></span>"]⟩ :=
  claim6_empty ⟨[], 3, 7, true, [⟨5, "zz"⟩]⟩ rfl

/-- Claim C2: for every valid input with truncation limit `L ≠ -1` and
line length `≥ L`, the cutoff index is `L - 1` and exactly the source
characters at indices `0` through `L - 1` are rendered (the offset table
has exactly `L` entries, one per rendered character), the scan returns
early, the ellipsis marker appears exactly once in the output, and
`lastRenderedPartIndex` is the index of the token containing source
offset `L - 1`. -/
theorem claim2_truncation (input : RenderLineInput) (L : Nat)
    (hstop : input.stopRenderingLineAfter = (L : Int))
    (hL : 1 ≤ L) (hlen : L ≤ input.lineContent.length)
    (hfirst : (input.parts.map LineToken.startIndex).head? = some 0)
    (_hsorted : List.Chain' (fun a b => a.startIndex < b.startIndex) input.parts)
    (htypes : ∀ p ∈ input.parts, p.type ≠ hellipMarker) :
    ∃ outp : IRenderLineOutput, renderLine input = Except.ok outp ∧
      outp.charOffsetInPart.length = L ∧
      outp.output.count hellipMarker = 1 ∧
      outp.lastRenderedPartIndex = tokenContaining input.parts (L - 1) := by
  have hpne : input.parts ≠ [] := by
    intro hc
    rw [hc] at hfirst
    simp at hfirst
  have hlne : input.lineContent ≠ [] := by
    intro hc
    rw [hc] at hlen
    simp at hlen
    omega
  have hKlt : L - 1 < input.lineContent.length := by omega
  obtain ⟨ps, hcnt, hrp⟩ := renderParts_inr input.lineContent input.tabSize
    input.renderWhitespace (L - 1) hKlt input.parts 0
    ⟨0, ["<span>"], [], 0, 0⟩ hpne (by show (0 : Nat) ≤ L - 1; omega)
  have hCBI : (if input.stopRenderingLineAfter = -1 then
      ((input.lineContent.length : Nat) : Int)
      else input.stopRenderingLineAfter - 1) = ((L - 1 : Nat) : Int) := by
    rw [if_neg (by rw [hstop]; omega), hstop]
    omega
  rw [renderLine_eq_actual input hlne hpne, hCBI]
  refine ⟨_, rfl, ?_, ?_, ?_⟩
  · show (renderLineActual input.lineContent input.tabSize input.parts
      input.renderWhitespace ((L - 1 : Nat) : Int)).charOffsetInPart.length = L
    simp only [renderLineActual]
    rw [hrp]
    show ([] ++ incLast (List.take (L - 1 + 1 - 0)
      (partRecs input.lineContent input.tabSize input.parts 0 0))).length = L
    rw [List.nil_append, incLast_length, List.length_take,
      partRecs_length input.lineContent input.tabSize input.parts 0 0 hpne
        (Nat.zero_le _)]
    omega
  · show (renderLineActual input.lineContent input.tabSize input.parts
      input.renderWhitespace ((L - 1 : Nat) : Int)).output.count hellipMarker = 1
    simp only [renderLineActual]
    rw [hrp]
    show (["<span>"] ++ ps).count hellipMarker = 1
    rw [List.count_append, hcnt htypes]
    rfl
  · show (renderLineActual input.lineContent input.tabSize input.parts
      input.renderWhitespace ((L - 1 : Nat) : Int)).lastRenderedPartIndex =
      tokenContaining input.parts (L - 1)
    simp only [renderLineActual]
    rw [hrp]
    simp

/-- Claim C2 witness: line `"ab"`, tokens at 0 and 1, truncation limit
2, at which the table has 2 entries, the ellipsis appears once, and the
last rendered token is token 1 (the token containing offset 1). -/
theorem claim2_truncation_witness :
    ∃ outp : IRenderLineOutput,
      renderLine ⟨['a', 'b'], 4, (2 : Int), false, [⟨0, "t1"⟩, ⟨1, "t2"⟩]⟩ =
        Except.ok outp ∧
      outp.charOffsetInPart.length = 2 ∧
      outp.output.count hellipMarker = 1 ∧
      outp.lastRenderedPartIndex =
        tokenContaining [⟨0, "t1"⟩, ⟨1, "t2"⟩] 1 :=
  claim2_truncation ⟨['a', 'b'], 4, (2 : Int), false, [⟨0, "t1"⟩, ⟨1, "t2"⟩]⟩ 2
    rfl (by decide) (by decide) (by decide)
    (by simp [List.chain'_cons]) (by decide)

/-- Claim C3: the offset table has exactly one entry per source
character scanned.  Whenever the scan completes without truncation —
`stopRenderingLineAfter = -1`, or a finite limit `L` strictly greater
than the line length, so the cutoff is never reached — the table is the
recorded per-character entries (`partRecs`) plus one trailing sentinel
equal to the final per-token offset (`lastCop`), hence
`lineLength + 1` entries.  With truncation at limit `L ≤ lineLength` no
sentinel is appended: the table is the first `L` recorded entries with
the last one incremented by 1. -/
theorem claim3_offsets (input : RenderLineInput)
    (hlne : input.lineContent ≠ []) (hpne : input.parts ≠ []) :
    ((input.stopRenderingLineAfter = -1 ∨
      ∃ L : Nat, input.stopRenderingLineAfter = (L : Int) ∧
        input.lineContent.length < L) →
      ∃ outp : IRenderLineOutput, renderLine input = Except.ok outp ∧
        outp.charOffsetInPart =
          partRecs input.lineContent input.tabSize input.parts 0 0 ++
            [lastCop input.lineContent input.tabSize input.parts 0 0 0] ∧
        outp.charOffsetInPart.length = input.lineContent.length + 1) ∧
    (∀ L : Nat, input.stopRenderingLineAfter = (L : Int) → 1 ≤ L →
      L ≤ input.lineContent.length →
      ∃ outp : IRenderLineOutput, renderLine input = Except.ok outp ∧
        outp.charOffsetInPart =
          incLast ((partRecs input.lineContent input.tabSize input.parts 0 0).take L) ∧
        outp.charOffsetInPart.length = L) := by
  constructor
  · intro hstop
    have hge : ((input.lineContent.length : Nat) : Int) ≤
        (if input.stopRenderingLineAfter = -1 then
          ((input.lineContent.length : Nat) : Int)
         else input.stopRenderingLineAfter - 1) := by
      rcases hstop with h | ⟨L, hL, hlt⟩
      · rw [if_pos h]
      · rw [if_neg (by rw [hL]; omega), hL]
        have hcast : (input.lineContent.length : Int) < (L : Int) := by
          exact_mod_cast hlt
        omega
    obtain ⟨outArr2, ci2, d2, hrp⟩ := renderParts_inl input.lineContent input.tabSize
      input.renderWhitespace
      (if input.stopRenderingLineAfter = -1 then
        ((input.lineContent.length : Nat) : Int)
       else input.stopRenderingLineAfter - 1) hge
      input.parts 0 ⟨0, ["<span>"], [], 0, 0⟩ (Nat.zero_le _)
    rw [renderLine_eq_actual input hlne hpne]
    refine ⟨_, rfl, ?_, ?_⟩
    · simp only [renderLineActual]
      rw [hrp]
      rfl
    · simp only [renderLineActual]
      rw [hrp]
      show (([] ++ partRecs input.lineContent input.tabSize input.parts 0 0) ++
        [lastCop input.lineContent input.tabSize input.parts 0 0 0]).length = _
      rw [List.nil_append, List.length_append,
        partRecs_length input.lineContent input.tabSize input.parts 0 0 hpne
          (Nat.zero_le _)]
      simp
  · intro L hstop hL hlen
    have hKlt : L - 1 < input.lineContent.length := by omega
    obtain ⟨ps, hcnt, hrp⟩ := renderParts_inr input.lineContent input.tabSize
      input.renderWhitespace (L - 1) hKlt input.parts 0
      ⟨0, ["<span>"], [], 0, 0⟩ hpne (by show (0 : Nat) ≤ L - 1; omega)
    have hCBI : (if input.stopRenderingLineAfter = -1 then
        ((input.lineContent.length : Nat) : Int)
        else input.stopRenderingLineAfter - 1) = ((L - 1 : Nat) : Int) := by
      rw [if_neg (by rw [hstop]; omega), hstop]
      omega
    rw [renderLine_eq_actual input hlne hpne, hCBI]
    have hL1 : L - 1 + 1 - 0 = L := by omega
    refine ⟨_, rfl, ?_, ?_⟩
    · show (renderLineActual input.lineContent input.tabSize input.parts
        input.renderWhitespace ((L - 1 : Nat) : Int)).charOffsetInPart =
        incLast ((partRecs input.lineContent input.tabSize input.parts 0 0).take L)
      simp only [renderLineActual]
      rw [hrp]
      show [] ++ incLast ((partRecs input.lineContent input.tabSize input.parts
        0 0).take (L - 1 + 1 - 0)) = _
      rw [List.nil_append, hL1]
    · show (renderLineActual input.lineContent input.tabSize input.parts
        input.renderWhitespace ((L - 1 : Nat) : Int)).charOffsetInPart.length = L
      simp only [renderLineActual]
      rw [hrp]
      show ([] ++ incLast ((partRecs input.lineContent input.tabSize input.parts
        0 0).take (L - 1 + 1 - 0))).length = L
      rw [List.nil_append, incLast_length, List.length_take,
        partRecs_length input.lineContent input.tabSize input.parts 0 0 hpne
          (Nat.zero_le _)]
      omega

/-- Claim C3 witness: all three regimes at concrete inputs — line
`"a\tb"` with no limit (`-1`) has table `partRecs ++ [lastCop]` of
length 4; the same line with the finite limit 5, greater than the line
length 3, is likewise untruncated with the sentinel appended; and
truncated at limit 2 it has table `incLast (take 2 partRecs)` of
length 2. -/
theorem claim3_offsets_witness :
    (∃ outp : IRenderLineOutput,
      renderLine ⟨['a', '\t', 'b'], 4, -1, false, [⟨0, "text"⟩]⟩ = Except.ok outp ∧
      outp.charOffsetInPart =
        partRecs ['a', '\t', 'b'] 4 [⟨0, "text"⟩] 0 0 ++
          [lastCop ['a', '\t', 'b'] 4 [⟨0, "text"⟩] 0 0 0] ∧
      outp.charOffsetInPart.length = ['a', '\t', 'b'].length + 1) ∧
    (∃ outp : IRenderLineOutput,
      renderLine ⟨['a', '\t', 'b'], 4, (5 : Int), false, [⟨0, "text"⟩]⟩ =
        Except.ok outp ∧
      outp.charOffsetInPart =
        partRecs ['a', '\t', 'b'] 4 [⟨0, "text"⟩] 0 0 ++
          [lastCop ['a', '\t', 'b'] 4 [⟨0, "text"⟩] 0 0 0] ∧
      outp.charOffsetInPart.length = ['a', '\t', 'b'].length + 1) ∧
    (∃ outp : IRenderLineOutput,
      renderLine ⟨['a', '\t', 'b'], 4, (2 : Int), false, [⟨0, "text"⟩]⟩ =
        Except.ok outp ∧
      outp.charOffsetInPart =
        incLast ((partRecs ['a', '\t', 'b'] 4 [⟨0, "text"⟩] 0 0).take 2) ∧
      outp.charOffsetInPart.length = 2) :=
  ⟨(claim3_offsets ⟨['a', '\t', 'b'], 4, -1, false, [⟨0, "text"⟩]⟩
      (by decide) (by decide)).1 (Or.inl rfl),
   (claim3_offsets ⟨['a', '\t', 'b'], 4, (5 : Int), false, [⟨0, "text"⟩]⟩
      (by decide) (by decide)).1 (Or.inr ⟨5, by decide, by decide⟩),
   (claim3_offsets ⟨['a', '\t', 'b'], 4, (2 : Int), false, [⟨0, "text"⟩]⟩
      (by decide) (by decide)).2 2 rfl (by decide) (by decide)⟩

/-- Claim C5: for a tab character at source index `charIndex` with
accumulated delta `tabsCharDelta`, the renderer computes
`insertSpacesCount = tabSize - (charIndex + tabsCharDelta) % tabSize`,
increases `tabsCharDelta` and the per-token offset counter by
`insertSpacesCount - 1` (the counter then gets its unconditional `+ 1`),
and emits exactly `insertSpacesCount` glyphs: a visible-tab glyph
(`&rarr;`) if the token is whitespace-significant, else `&nbsp;`, for
the first column, and `&nbsp;` for the remaining
`insertSpacesCount - 1` columns. -/
theorem claim5_tab (lineText : List Char) (tabSize : Nat) (prw : Bool) (st : ScanState)
    (htab : (lineText.getD st.charIndex (Char.ofNat 0)).toNat = 9)
    (hts : 1 ≤ tabSize) :
    renderOneChar lineText tabSize prw st =
      ⟨st.charIndex,
        st.out ++ ((if prw then "&rarr;" else "&nbsp;") ::
          List.replicate (tabSize - (st.charIndex + st.tabsCharDelta) % tabSize - 1)
            "&nbsp;"),
        st.charOffsetInPartArr ++ [st.charOffsetInPart],
        st.tabsCharDelta + (tabSize - (st.charIndex + st.tabsCharDelta) % tabSize - 1),
        st.charOffsetInPart +
          (tabSize - (st.charIndex + st.tabsCharDelta) % tabSize - 1) + 1⟩ ∧
    ((if prw then "&rarr;" else "&nbsp;") ::
      List.replicate (tabSize - (st.charIndex + st.tabsCharDelta) % tabSize - 1)
        "&nbsp;").length = tabSize - (st.charIndex + st.tabsCharDelta) % tabSize := by
  have hmod : (st.charIndex + st.tabsCharDelta) % tabSize < tabSize :=
    Nat.mod_lt _ (by omega)
  constructor
  · have hpos : 0 < tabSize - (st.charIndex + st.tabsCharDelta) % tabSize := by omega
    simp only [renderOneChar, htab]
    simp [hpos, hmod]
  · simp only [List.length_cons, List.length_replicate]
    omega

/-- Claim C5 witness: a tab at index 0 of a whitespace-significant
token, tab size 4: one `&rarr;` and three `&nbsp;` glyphs. -/
theorem claim5_tab_witness :
    renderOneChar ['\t'] 4 true ⟨0, [], [], 0, 0⟩ =
      ⟨0, [] ++ ((if true then "&rarr;" else "&nbsp;") ::
          List.replicate (4 - (0 + 0) % 4 - 1) "&nbsp;"),
        [] ++ [0], 0 + (4 - (0 + 0) % 4 - 1), 0 + (4 - (0 + 0) % 4 - 1) + 1⟩ ∧
    ((if true then "&rarr;" else "&nbsp;") ::
      List.replicate (4 - (0 + 0) % 4 - 1) "&nbsp;").length = 4 - (0 + 0) % 4 :=
  claim5_tab ['\t'] 4 true ⟨0, [], [], 0, 0⟩ rfl (by decide)

/-- Claim C7: every character-loop iteration appends fragments among
which the bare strings `<`, `>`, `&` never occur, and a source `<`, `>`
or `&` is emitted precisely as its escaped entity. -/
theorem claim7_escaping (lineText : List Char) (tabSize : Nat) (prw : Bool)
    (st : ScanState) :
    ∃ ps : List String,
      (renderOneChar lineText tabSize prw st).out = st.out ++ ps ∧
      ("<" : String) ∉ ps ∧ (">" : String) ∉ ps ∧ ("&" : String) ∉ ps ∧
      (lineText.getD st.charIndex (Char.ofNat 0) = '<' → ps = ["&lt;"]) ∧
      (lineText.getD st.charIndex (Char.ofNat 0) = '>' → ps = ["&gt;"]) ∧
      (lineText.getD st.charIndex (Char.ofNat 0) = '&' → ps = ["&amp;"]) := by
  obtain ⟨ps, ⟨_, hlt, hgt, hamp⟩, hstep⟩ := renderOneChar_spec lineText tabSize prw st
  have hout : (renderOneChar lineText tabSize prw st).out = st.out ++ ps := by
    rw [hstep]
  refine ⟨ps, hout, hlt, hgt, hamp, ?_, ?_, ?_⟩
  · intro hc
    have h60 : (lineText.getD st.charIndex (Char.ofNat 0)).toNat = 60 := by
      rw [hc]
      decide
    have hout2 : (renderOneChar lineText tabSize prw st).out = st.out ++ ["&lt;"] := by
      simp only [renderOneChar, h60]
      simp
    rw [hout] at hout2
    exact List.append_cancel_left hout2
  · intro hc
    have h62 : (lineText.getD st.charIndex (Char.ofNat 0)).toNat = 62 := by
      rw [hc]
      decide
    have hout2 : (renderOneChar lineText tabSize prw st).out = st.out ++ ["&gt;"] := by
      simp only [renderOneChar, h62]
      simp
    rw [hout] at hout2
    exact List.append_cancel_left hout2
  · intro hc
    have h38 : (lineText.getD st.charIndex (Char.ofNat 0)).toNat = 38 := by
      rw [hc]
      decide
    have hout2 : (renderOneChar lineText tabSize prw st).out = st.out ++ ["&amp;"] := by
      simp only [renderOneChar, h38]
      simp
    rw [hout] at hout2
    exact List.append_cancel_left hout2

/-- Claim C7 witness: the three escaped characters at concrete inputs
each produce exactly their entity. -/
theorem claim7_escaping_witness :
    (renderOneChar ['<'] 4 false ⟨0, [], [], 0, 0⟩).out = [] ++ ["&lt;"] ∧
    (renderOneChar ['>'] 4 false ⟨0, [], [], 0, 0⟩).out = [] ++ ["&gt;"] ∧
    (renderOneChar ['&'] 4 false ⟨0, [], [], 0, 0⟩).out = [] ++ ["&amp;"] := by
  refine ⟨?_, ?_, ?_⟩
  · obtain ⟨ps, hout, -, -, -, hlt, -, -⟩ :=
      claim7_escaping ['<'] 4 false ⟨0, [], [], 0, 0⟩
    rw [hout, hlt rfl]
  · obtain ⟨ps, hout, -, -, -, -, hgt, -⟩ :=
      claim7_escaping ['>'] 4 false ⟨0, [], [], 0, 0⟩
    rw [hout, hgt rfl]
  · obtain ⟨ps, hout, -, -, -, -, -, hamp⟩ :=
      claim7_escaping ['&'] 4 false ⟨0, [], [], 0, 0⟩
    rw [hout, hamp rfl]

theorem renderParts_congr (lineText : List Char) (tabSize : Nat) (rws : Bool)
    (CBI : Int) :
    ∀ (ps1 ps2 : List LineToken) (pi : Nat) (st : ScanState),
    ps1.map LineToken.type = ps2.map LineToken.type →
    (ps1.map LineToken.startIndex).tail = (ps2.map LineToken.startIndex).tail →
    renderParts lineText tabSize rws CBI ps1 pi st =
      renderParts lineText tabSize rws CBI ps2 pi st := by
  intro ps1
  induction ps1 with
  | nil =>
    intro ps2 pi st htypes _
    cases ps2 with
    | nil => rfl
    | cons p2 r2 => simp at htypes
  | cons p1 r1 ih =>
    intro ps2 pi st htypes hstarts
    cases ps2 with
    | nil => simp at htypes
    | cons p2 r2 =>
      simp only [List.map_cons] at htypes
      injection htypes with hty htail
      simp only [List.map_cons, List.tail_cons] at hstarts
      have hpe : partEndIndex lineText r1 = partEndIndex lineText r2 := by
        cases r1 with
        | nil =>
          cases r2 with
          | nil => rfl
          | cons q2 t2 => simp at htail
        | cons q1 t1 =>
          cases r2 with
          | nil => simp at htail
          | cons q2 t2 =>
            simp only [List.map_cons] at hstarts
            injection hstarts with hsi _
            simp only [partEndIndex, hsi]
      rw [renderParts_cons_eq, renderParts_cons_eq, hty, hpe]
      cases hscan : scanChars lineText tabSize (rws && isWhitespace p2.type) CBI
        (partEndIndex lineText r2 - st.charIndex)
        ⟨st.charIndex, st.out ++ ["<span class=\"token ", p2.type, "\">"],
          st.charOffsetInPartArr, st.tabsCharDelta, 0⟩ with
      | inl st2 =>
        exact ih r2 (pi + 1) _ htail (congrArg List.tail hstarts)
      | inr v => rfl

theorem renderLineActual_congr (lineText : List Char) (tabSize : Nat) (rws : Bool)
    (CBI : Int) (ps1 ps2 : List LineToken)
    (htypes : ps1.map LineToken.type = ps2.map LineToken.type)
    (hstarts : (ps1.map LineToken.startIndex).tail =
      (ps2.map LineToken.startIndex).tail) :
    renderLineActual lineText tabSize ps1 rws CBI =
      renderLineActual lineText tabSize ps2 rws CBI := by
  have hlen : ps1.length = ps2.length := by
    have := congrArg List.length htypes
    simpa using this
  simp only [renderLineActual]
  rw [renderParts_congr lineText tabSize rws CBI ps1 ps2 0 _ htypes hstarts, hlen]

/-- Claim C9: the renderer never reads a token's own `startIndex`: the
output depends on the token list only through the type labels and the
`startIndex` values of the tokens after the first — each token's range
begins where the previous one ended (index 0 for the first), bounded by
the next token's `startIndex` clamped to the line length.  In
particular, changing the first token's `startIndex` (e.g. to a non-zero
value) never changes the output. -/
theorem claim9_startIndex (i1 i2 : RenderLineInput)
    (hline : i1.lineContent = i2.lineContent)
    (htab : i1.tabSize = i2.tabSize)
    (hstop : i1.stopRenderingLineAfter = i2.stopRenderingLineAfter)
    (hws : i1.renderWhitespace = i2.renderWhitespace)
    (htypes : i1.parts.map LineToken.type = i2.parts.map LineToken.type)
    (hstarts : (i1.parts.map LineToken.startIndex).tail =
      (i2.parts.map LineToken.startIndex).tail) :
    renderLine i1 = renderLine i2 := by
  obtain ⟨c1, t1, s1, w1, q1⟩ := i1
  obtain ⟨c2, t2, s2, w2, q2⟩ := i2
  simp only at hline htab hstop hws htypes hstarts
  subst hline htab hstop hws
  have hlen : q1.length = q2.length := by
    have := congrArg List.length htypes
    simpa using this
  simp only [renderLine, hlen]
  rw [renderLineActual_congr c1 t1 w1
    (if s1 = -1 then (c1.length : Int) else s1 - 1) q1 q2 htypes hstarts]

/-- Claim C9 witness: two inputs identical except that the first
token's `startIndex` is 0 in one and 9 in the other render
identically. -/
theorem claim9_startIndex_witness :
    renderLine ⟨['a', 'b'], 4, -1, false, [⟨0, "x"⟩, ⟨1, "y"⟩]⟩ =
      renderLine ⟨['a', 'b'], 4, -1, false, [⟨9, "x"⟩, ⟨1, "y"⟩]⟩ :=
  claim9_startIndex ⟨['a', 'b'], 4, -1, false, [⟨0, "x"⟩, ⟨1, "y"⟩]⟩
    ⟨['a', 'b'], 4, -1, false, [⟨9, "x"⟩, ⟨1, "y"⟩]⟩
    rfl rfl rfl rfl rfl rfl

theorem tabDelta_le (lineText : List Char) (tabSize : Nat) (hts : 1 ≤ tabSize)
    (i d : Nat) : tabDelta lineText tabSize i d ≤ tabSize - 1 := by
  unfold tabDelta
  split
  · have : (i + d) % tabSize < tabSize := Nat.mod_lt _ (by omega)
    omega
  · omega

theorem renderOneChar_len (lineText : List Char) (tabSize : Nat) (prw : Bool)
    (hts : 1 ≤ tabSize) (st : ScanState) :
    (renderOneChar lineText tabSize prw st).out.length =
      st.out.length + (tabDelta lineText tabSize st.charIndex st.tabsCharDelta + 1) := by
  by_cases h9 : (lineText.getD st.charIndex (Char.ofNat 0)).toNat = 9
  · have hmod : (st.charIndex + st.tabsCharDelta) % tabSize < tabSize :=
      Nat.mod_lt _ (by omega)
    have hpos : 0 < tabSize - (st.charIndex + st.tabsCharDelta) % tabSize := by omega
    simp only [renderOneChar, h9, tabDelta]
    simp [hpos, hmod]
  · simp only [renderOneChar, h9, tabDelta, if_neg, if_false]
    rw [List.length_append]
    have hone : (if (lineText.getD st.charIndex (Char.ofNat 0)).toNat = 32 then
        [if prw then "&middot;" else "&nbsp;"]
        else if (lineText.getD st.charIndex (Char.ofNat 0)).toNat = 60 then ["&lt;"]
        else if (lineText.getD st.charIndex (Char.ofNat 0)).toNat = 62 then ["&gt;"]
        else if (lineText.getD st.charIndex (Char.ofNat 0)).toNat = 38 then ["&amp;"]
        else if (lineText.getD st.charIndex (Char.ofNat 0)).toNat = 0 then ["&#00;"]
        else if (lineText.getD st.charIndex (Char.ofNat 0)).toNat = 65279 ∨
          (lineText.getD st.charIndex (Char.ofNat 0)).toNat = 8232 then ["�"]
        else if (lineText.getD st.charIndex (Char.ofNat 0)).toNat = 13 then ["&#8203"]
        else [String.mk [lineText.getD st.charIndex (Char.ofNat 0)]]).length = 1 := by
      repeat' split
      all_goals rfl
    rw [hone]

theorem scanChars_mono (lineText : List Char) (tabSize : Nat) (prw : Bool) (CBI : Int) :
    ∀ (n : Nat) (st st2 : ScanState),
      scanChars lineText tabSize prw CBI n st = Sum.inl st2 →
      st.tabsCharDelta ≤ st2.tabsCharDelta ∧
      st.charOffsetInPart ≤ st2.charOffsetInPart := by
  intro n
  induction n with
  | zero =>
    intro st st2 h
    simp only [scanChars, Sum.inl.injEq] at h
    rw [← h]
    exact ⟨le_refl _, le_refl _⟩
  | succ n ih =>
    intro st st2 h
    obtain ⟨ps0, _, hstep⟩ := renderOneChar_spec lineText tabSize prw st
    by_cases hc : (st.charIndex : Int) ≥ CBI
    · simp only [scanChars, if_pos hc] at h
      exact Sum.noConfusion h
    · simp only [scanChars, if_neg hc] at h
      rw [hstep] at h
      have hrec := ih _ _ h
      refine ⟨Nat.le_trans (Nat.le_add_right st.tabsCharDelta
        (tabDelta lineText tabSize st.charIndex st.tabsCharDelta)) hrec.1,
        Nat.le_trans (Nat.le_trans (Nat.le_add_right st.charOffsetInPart
          (tabDelta lineText tabSize st.charIndex st.tabsCharDelta))
          (Nat.le_succ _)) hrec.2⟩

theorem renderParts_mono (lineText : List Char) (tabSize : Nat) (rws : Bool)
    (CBI : Int) :
    ∀ (parts : List LineToken) (pi : Nat) (st st2 : ScanState),
      renderParts lineText tabSize rws CBI parts pi st = Sum.inl st2 →
      st.tabsCharDelta ≤ st2.tabsCharDelta := by
  intro parts
  induction parts with
  | nil =>
    intro pi st st2 h
    simp only [renderParts, Sum.inl.injEq] at h
    rw [← h]
  | cons p rest ih =>
    intro pi st st2 h
    rw [renderParts_cons_eq] at h
    cases hscan : scanChars lineText tabSize (rws && isWhitespace p.type) CBI
      (partEndIndex lineText rest - st.charIndex)
      ⟨st.charIndex, st.out ++ ["<span class=\"token ", p.type, "\">"],
        st.charOffsetInPartArr, st.tabsCharDelta, 0⟩ with
    | inl st3 =>
      rw [hscan] at h
      have h1 := (scanChars_mono lineText tabSize (rws && isWhitespace p.type) CBI
        _ _ _ hscan).1
      have h2 := ih (pi + 1) _ st2 h
      exact Nat.le_trans h1 h2
    | inr v =>
      obtain ⟨offs, outArr⟩ := v
      rw [hscan] at h
      exact absurd h (by simp)

/-- Claim C10: with `tabSize ≥ 1`, for a tab character the computed
`insertSpacesCount = tabSize - (charIndex + tabsCharDelta) % tabSize`
lies in `[1, tabSize]` and the tab emits exactly that many glyphs;
hence every character emits between 1 and `tabSize` fragments, and
`tabsCharDelta` (across the whole call) and the per-token offset
counter (within a token's scan) never decrease. -/
theorem claim10_tab_bounds (lineText : List Char) (tabSize : Nat) (prw : Bool)
    (hts : 1 ≤ tabSize) :
    (∀ st : ScanState, (lineText.getD st.charIndex (Char.ofNat 0)).toNat = 9 →
      1 ≤ tabSize - (st.charIndex + st.tabsCharDelta) % tabSize ∧
      tabSize - (st.charIndex + st.tabsCharDelta) % tabSize ≤ tabSize ∧
      (renderOneChar lineText tabSize prw st).out.length =
        st.out.length + (tabSize - (st.charIndex + st.tabsCharDelta) % tabSize)) ∧
    (∀ st : ScanState,
      st.out.length + 1 ≤ (renderOneChar lineText tabSize prw st).out.length ∧
      (renderOneChar lineText tabSize prw st).out.length ≤ st.out.length + tabSize ∧
      st.tabsCharDelta ≤ (renderOneChar lineText tabSize prw st).tabsCharDelta ∧
      st.charOffsetInPart < (renderOneChar lineText tabSize prw st).charOffsetInPart) ∧
    (∀ (CBI : Int) (n : Nat) (st st2 : ScanState),
      scanChars lineText tabSize prw CBI n st = Sum.inl st2 →
      st.tabsCharDelta ≤ st2.tabsCharDelta ∧
      st.charOffsetInPart ≤ st2.charOffsetInPart) ∧
    (∀ (CBI : Int) (parts : List LineToken) (pi : Nat) (st st2 : ScanState),
      renderParts lineText tabSize prw CBI parts pi st = Sum.inl st2 →
      st.tabsCharDelta ≤ st2.tabsCharDelta) := by
  refine ⟨?_, ?_, scanChars_mono lineText tabSize prw,
    renderParts_mono lineText tabSize prw⟩
  · intro st htab
    have hmod : (st.charIndex + st.tabsCharDelta) % tabSize < tabSize :=
      Nat.mod_lt _ (by omega)
    refine ⟨by omega, by omega, ?_⟩
    rw [renderOneChar_len lineText tabSize prw hts st]
    have : tabDelta lineText tabSize st.charIndex st.tabsCharDelta =
        tabSize - (st.charIndex + st.tabsCharDelta) % tabSize - 1 := by
      unfold tabDelta
      rw [if_pos htab]
    rw [this]
    omega
  · intro st
    have hdle := tabDelta_le lineText tabSize hts st.charIndex st.tabsCharDelta
    obtain ⟨ps0, _, hstep⟩ := renderOneChar_spec lineText tabSize prw st
    have hlen := renderOneChar_len lineText tabSize prw hts st
    refine ⟨by omega, by omega, ?_, ?_⟩
    · rw [hstep]
      exact Nat.le_add_right _ _
    · rw [hstep]
      show st.charOffsetInPart <
        st.charOffsetInPart + tabDelta lineText tabSize st.charIndex st.tabsCharDelta + 1
      omega

/-- Claim C10 witness: the bounds and monotonicity at concrete
inputs — a tab at index 0 with tab size 4, a plain character, the empty
scan, and the empty token loop. -/
theorem claim10_tab_bounds_witness :
    (1 ≤ 4 - (0 + 0) % 4 ∧ 4 - (0 + 0) % 4 ≤ 4 ∧
      (renderOneChar ['\t'] 4 false ⟨0, [], [], 0, 0⟩).out.length =
        ([] : List String).length + (4 - (0 + 0) % 4)) ∧
    (([] : List String).length + 1 ≤
        (renderOneChar ['a'] 4 false ⟨0, [], [], 0, 0⟩).out.length ∧
      (renderOneChar ['a'] 4 false ⟨0, [], [], 0, 0⟩).out.length ≤
        ([] : List String).length + 4 ∧
      (0 : Nat) ≤ (renderOneChar ['a'] 4 false ⟨0, [], [], 0, 0⟩).tabsCharDelta ∧
      (0 : Nat) < (renderOneChar ['a'] 4 false ⟨0, [], [], 0, 0⟩).charOffsetInPart) ∧
    ((0 : Nat) ≤ (0 : Nat) ∧ (0 : Nat) ≤ (0 : Nat)) ∧
    ((0 : Nat) ≤ (0 : Nat)) :=
  ⟨(claim10_tab_bounds ['\t'] 4 false (by decide)).1 ⟨0, [], [], 0, 0⟩ rfl,
   (claim10_tab_bounds ['a'] 4 false (by decide)).2.1 ⟨0, [], [], 0, 0⟩,
   (claim10_tab_bounds ['a'] 4 false (by decide)).2.2.1 (-1) 0
     ⟨0, [], [], 0, 0⟩ ⟨0, [], [], 0, 0⟩ rfl,
   (claim10_tab_bounds ['a'] 4 false (by decide)).2.2.2 (-1) [] 0
     ⟨0, [], [], 0, 0⟩ ⟨0, [], [], 0, 0⟩ rfl⟩

end ViewLineRenderer
